import Mathlib

/-!
Shallow embedding of `src/main.py` (brute-force optimization by exhaustive
sampling: a discrete linear-scan optimizer, a continuous variant built on it
via `np.arange` discretization with optional interval refinement, and a
dispatcher selecting between them).

Modelling choices:
* Numeric values are `ℚ` (exact arithmetic); the objective function is
  `ℚ → ℚ`.
* The Python float sentinels (minus and plus infinity) and the finite
  values the objective produces are embedded as `FloatVal`, with the strict
  comparison the `for` loop of `maquina_turing_discreta` performs.
* `np.arange start stop step` (for the step sizes the program uses) produces
  `start + k*step` for `0 ≤ k < ⌈(stop - start)/step⌉`; `arange` mirrors that.
* Python exceptions are an explicit error type `PyError`; functions that can
  raise return `Except PyError _`.  `maquina_turing_continua` with
  `iteraciones ≤ 0` never assigns `x_opt`/`f_opt`, so its `return` raises
  `UnboundLocalError`; refining from an empty grid subtracts from `None`,
  a `TypeError`; keyword arguments not accepted by
  `maquina_turing_discreta` raise a `TypeError` at the call.
* The dispatcher argument `dominio` is a Python value that is either a
  list/range of numbers, a tuple of numbers, or a string (the shapes the
  scenarios of the spec exercise).  Iterating a string in discrete mode would
  apply the numeric objective to characters, embedded as a `TypeError`.
* The keyword-argument bag `**kwargs` is a `Kwargs` record: one optional
  field per key the program ever reads, plus the list of any other keys.
-/

/-- Embedded Python float values: the two infinite sentinels used by
`maquina_turing_discreta` plus finite rationals (NaN never arises, since the
objective is total on `ℚ`). -/
inductive FloatVal where
  | negInf : FloatVal
  | posInf : FloatVal
  | fin : ℚ → FloatVal
  deriving DecidableEq

/-- Python `<` on embedded non-NaN floats. -/
def FloatVal.lt : FloatVal → FloatVal → Bool
  | .negInf, .negInf => false
  | .negInf, .posInf => true
  | .negInf, .fin _ => true
  | .posInf, _ => false
  | .fin _, .posInf => true
  | .fin _, .negInf => false
  | .fin p, .fin q => decide (p < q)

/-- Python `>` on embedded non-NaN floats. -/
def FloatVal.gt (x y : FloatVal) : Bool := FloatVal.lt y x

/-- The `for x in dominio` loop of `maquina_turing_discreta` (src/main.py
lines 14-18), carrying the running `(x_opt, f_opt)` accumulator. -/
def scanLoop (func : ℚ → ℚ) (maximizar : Bool) :
    List ℚ → Option ℚ × FloatVal → Option ℚ × FloatVal
  | [], acc => acc
  | x :: resto, (x_opt, f_opt) =>
    let f_x : FloatVal := .fin (func x)
    if (maximizar && FloatVal.gt f_x f_opt) || (!maximizar && FloatVal.lt f_x f_opt) then
      scanLoop func maximizar resto (some x, f_x)
    else
      scanLoop func maximizar resto (x_opt, f_opt)

/-- `maquina_turing_discreta` (src/main.py lines 3-20): linear scan returning
`(x_opt, f_opt)`, starting from `x_opt = None` and the infinite sentinel. -/
def maquina_turing_discreta (func : ℚ → ℚ) (dominio : List ℚ) (maximizar : Bool) :
    Option ℚ × FloatVal :=
  scanLoop func maximizar dominio (none, if maximizar then .negInf else .posInf)

/-- Embedded Python exceptions raised by this program. -/
inductive PyError where
  | valueError : PyError
  | typeError : PyError
  | unboundLocalError : PyError
  deriving DecidableEq

/-- `np.arange start stop step` for the arguments this program passes it:
the values `start + k*step` for `0 ≤ k < ⌈(stop - start)/step⌉`. -/
def arange (start stop step : ℚ) : List ℚ :=
  (List.range (Int.toNat ⌈(stop - start) / step⌉)).map fun k : ℕ => start + (k : ℚ) * step

/-- The mutable loop state of `maquina_turing_continua`: the interval bounds
`a`, `b`, the step `delta_x`, and the last assigned `(x_opt, f_opt)` (absent
before the first round, modelling the unassigned Python locals). -/
structure ContState where
  a : ℚ
  b : ℚ
  delta : ℚ
  result : Option (Option ℚ × FloatVal)
  deriving DecidableEq

/-- One round of the `for _ in range(iteraciones)` loop of
`maquina_turing_continua` (src/main.py lines 36-43): build the grid with
`np.arange(a, b + delta_x, delta_x)`, scan it, and if `refinamiento` clamp
the interval to `[max(a, x_opt - delta_x), min(b, x_opt + delta_x)]` and
halve `delta_x`.  When the grid was empty, `x_opt` is `None` and
`x_opt - delta_x` raises a `TypeError`. -/
def contStep (func : ℚ → ℚ) (maximizar refinamiento : Bool) (s : ContState) :
    Except PyError ContState :=
  let x_values := arange s.a (s.b + s.delta) s.delta
  let r := maquina_turing_discreta func x_values maximizar
  if refinamiento then
    match r.1 with
    | none => .error .typeError
    | some x =>
      .ok ⟨max s.a (x - s.delta), min s.b (x + s.delta), s.delta / 2, some r⟩
  else
    .ok ⟨s.a, s.b, s.delta, some r⟩

/-- Runs `n` rounds of `contStep`, propagating any raised error. -/
def runRounds (func : ℚ → ℚ) (maximizar refinamiento : Bool) :
    Nat → ContState → Except PyError ContState
  | 0, s => .ok s
  | n + 1, s =>
    match contStep func maximizar refinamiento s with
    | .error e => .error e
    | .ok s2 => runRounds func maximizar refinamiento n s2

/-- `maquina_turing_continua` (src/main.py lines 23-45): run
`range(iteraciones)` rounds (none when `iteraciones ≤ 0`, as in Python) and
return the last `(x_opt, f_opt)`; if no round ever ran, the `return`
statement reads unassigned locals and raises `UnboundLocalError`. -/
def maquina_turing_continua (func : ℚ → ℚ) (a b delta_x : ℚ)
    (maximizar refinamiento : Bool) (iteraciones : ℤ) :
    Except PyError (Option ℚ × FloatVal) :=
  match runRounds func maximizar refinamiento iteraciones.toNat ⟨a, b, delta_x, none⟩ with
  | .error e => .error e
  | .ok s =>
    match s.result with
    | none => .error .unboundLocalError
    | some r => .ok r

/-- The dispatcher argument `dominio`: a Python list/range of numbers, a
tuple of numbers, or a string. -/
inductive Dominio where
  | lista : List ℚ → Dominio
  | tupla : List ℚ → Dominio
  | cadena : String → Dominio
  deriving DecidableEq

/-- The `**kwargs` bag passed to `maquina_turing`: one optional field per
keyword the program ever reads, plus the names of any other keys present. -/
structure Kwargs where
  maximizar : Option Bool
  delta_x : Option ℚ
  refinamiento : Option Bool
  iteraciones : Option ℤ
  otros : List String
  deriving DecidableEq

/-- `True` exactly when the bag contains no key other than `maximizar`,
i.e. when the call `maquina_turing_discreta(func, dominio, **kwargs)`
binds every keyword to a parameter. -/
def Kwargs.soloMaximizar (kw : Kwargs) : Bool :=
  kw.delta_x = none && kw.refinamiento = none && kw.iteraciones = none && kw.otros = []

/-- The `isinstance(dominio, tuple) and len(dominio) == 2` test of
src/main.py line 60. -/
def esTupla2 : Dominio → Bool
  | .tupla [_, _] => true
  | _ => false

/-- `maquina_turing` (src/main.py lines 48-69), the dispatcher.
`tipo = "discreto"` forwards the whole `**kwargs` to
`maquina_turing_discreta`, which accepts only `maximizar` (any other key is
an unexpected keyword argument: `TypeError` raised at the call, before any
iteration); a string `dominio` would feed characters to the numeric
objective (`TypeError`).  `tipo = "continuo"` requires a 2-tuple domain,
reads `delta_x` (default 1/10), `refinamiento` (default false),
`iteraciones` (default 1) and `maximizar` (default true) from the bag,
ignoring unrecognized keys, and calls `maquina_turing_continua`.  Any other
`tipo` raises `ValueError`. -/
def maquina_turing (func : ℚ → ℚ) (dominio : Dominio) (tipo : String) (kwargs : Kwargs) :
    Except PyError (Option ℚ × FloatVal) :=
  if tipo = "discreto" then
    if kwargs.soloMaximizar then
      match dominio with
      | .lista xs => .ok (maquina_turing_discreta func xs (kwargs.maximizar.getD true))
      | .tupla xs => .ok (maquina_turing_discreta func xs (kwargs.maximizar.getD true))
      | .cadena _ => .error .typeError
    else
      .error .typeError
  else if tipo = "continuo" then
    match dominio with
    | .tupla [a, b] =>
      maquina_turing_continua func a b (kwargs.delta_x.getD (1/10))
        (kwargs.maximizar.getD true) (kwargs.refinamiento.getD false)
        (kwargs.iteraciones.getD 1)
    | _ => .error .valueError
  else
    .error .valueError

/-- C4: on the empty candidate sequence, `maquina_turing_discreta` silently
returns `x_opt = None` together with the infinite sentinel (`-inf` when
maximizing, `+inf` when minimizing); no error is raised. -/
theorem spec_C4 (f : ℚ → ℚ) (mx : Bool) :
    maquina_turing_discreta f [] mx =
      (none, if mx then FloatVal.negInf else FloatVal.posInf) := rfl

/-- C2: `maquina_turing_continua` with refinement disabled and
`iteraciones = 1` returns exactly the result of `maquina_turing_discreta`
on the grid `np.arange(a, b + delta_x, delta_x)`. -/
theorem spec_C2 (f : ℚ → ℚ) (a b δ : ℚ) (mx : Bool) :
    maquina_turing_continua f a b δ mx false 1 =
      .ok (maquina_turing_discreta f (arange a (b + δ) δ) mx) := rfl

/-- C10: with `iteraciones ≤ 0` the loop of `maquina_turing_continua` never
runs, so the final `return` reads the unassigned `x_opt`/`f_opt` and the
call fails with `UnboundLocalError` instead of returning a result. -/
theorem spec_C10 (f : ℚ → ℚ) (a b δ : ℚ) (mx rf : Bool) (n : ℤ) (hn : n ≤ 0) :
    maquina_turing_continua f a b δ mx rf n = .error .unboundLocalError := by
  unfold maquina_turing_continua
  rw [Int.toNat_of_nonpos hn]
  rfl

/-- Witness for C10 at `iteraciones = 0`. -/
theorem spec_C10_w :
    (0 : ℤ) ≤ 0 ∧
      maquina_turing_continua (fun x => x) 0 1 1 true false 0 =
        .error .unboundLocalError :=
  ⟨le_refl 0, spec_C10 (fun x => x) 0 1 1 true false 0 (le_refl 0)⟩

/-- With refinement disabled a round changes no state: it only recomputes
the grid result for the unchanged interval and step. -/
theorem contStep_false (f : ℚ → ℚ) (mx : Bool) (s : ContState) :
    contStep f mx false s =
      .ok ⟨s.a, s.b, s.delta,
        some (maquina_turing_discreta f (arange s.a (s.b + s.delta) s.delta) mx)⟩ := rfl

/-- A state whose stored result already is the grid result of its interval
is a fixed point of the refinement-free loop. -/
theorem runRounds_false_fix (f : ℚ → ℚ) (mx : Bool) (a b δ : ℚ) (n : Nat) :
    runRounds f mx false n
        ⟨a, b, δ, some (maquina_turing_discreta f (arange a (b + δ) δ) mx)⟩ =
      .ok ⟨a, b, δ, some (maquina_turing_discreta f (arange a (b + δ) δ) mx)⟩ := by
  induction n with
  | zero => rfl
  | succ n ih =>
    rw [runRounds, contStep_false]
    exact ih

/-- Any positive number of refinement-free rounds computes the first-round
state. -/
theorem runRounds_false_succ (f : ℚ → ℚ) (mx : Bool) (a b δ : ℚ)
    (res : Option (Option ℚ × FloatVal)) (n : Nat) :
    runRounds f mx false (n + 1) ⟨a, b, δ, res⟩ =
      .ok ⟨a, b, δ, some (maquina_turing_discreta f (arange a (b + δ) δ) mx)⟩ := by
  rw [runRounds, contStep_false]
  exact runRounds_false_fix f mx a b δ n

/-- C7: with refinement disabled, `maquina_turing_continua` with any
`iteraciones = N ≥ 1` returns exactly the same pair as with
`iteraciones = 1`: every round recomputes the identical first-round
result. -/
theorem spec_C7 (f : ℚ → ℚ) (a b δ : ℚ) (mx : Bool) (N : ℤ) (hN : 1 ≤ N) :
    maquina_turing_continua f a b δ mx false N =
      maquina_turing_continua f a b δ mx false 1 := by
  have h1 : Int.toNat N = (Int.toNat N - 1) + 1 := by omega
  unfold maquina_turing_continua
  rw [h1]
  rw [show Int.toNat 1 = 0 + 1 from rfl]
  rw [runRounds_false_succ, runRounds_false_succ]

/-- Witness for C7 at `N = 3` on `f(x) = x` over `[0, 1]` with `δ = 1`. -/
theorem spec_C7_w :
    (1 : ℤ) ≤ 3 ∧
      maquina_turing_continua (fun x => x) 0 1 1 true false 3 =
        maquina_turing_continua (fun x => x) 0 1 1 true false 1 :=
  ⟨by norm_num, spec_C7 (fun x => x) 0 1 1 true 3 (by norm_num)⟩

/-- One round never moves the lower bound down or the upper bound up. -/
theorem contStep_bounds (f : ℚ → ℚ) (mx rf : Bool) (s s2 : ContState)
    (h : contStep f mx rf s = .ok s2) : s.a ≤ s2.a ∧ s2.b ≤ s.b := by
  unfold contStep at h
  cases rf with
  | false =>
    simp only [Bool.false_eq_true, if_false, Except.ok.injEq] at h
    rw [← h]
    exact ⟨le_refl _, le_refl _⟩
  | true =>
    simp only [if_true] at h
    cases hr : (maquina_turing_discreta f (arange s.a (s.b + s.delta) s.delta) mx).1 with
    | none => rw [hr] at h; exact absurd h (by simp)
    | some x =>
      rw [hr] at h
      simp only [Except.ok.injEq] at h
      rw [← h]
      exact ⟨le_max_left _ _, min_le_left _ _⟩

/-- Any number of rounds keeps the interval inside the starting one. -/
theorem runRounds_bounds (f : ℚ → ℚ) (mx rf : Bool) (n : Nat) (s s2 : ContState)
    (h : runRounds f mx rf n s = .ok s2) : s.a ≤ s2.a ∧ s2.b ≤ s.b := by
  induction n generalizing s with
  | zero =>
    simp only [runRounds, Except.ok.injEq] at h
    rw [← h]
    exact ⟨le_refl _, le_refl _⟩
  | succ n ih =>
    rw [runRounds] at h
    cases hstep : contStep f mx rf s with
    | error e => rw [hstep] at h; exact absurd h (by simp)
    | ok s1 =>
      rw [hstep] at h
      obtain ⟨h1a, h1b⟩ := contStep_bounds f mx rf s s1 hstep
      obtain ⟨h2a, h2b⟩ := ih s1 h
      exact ⟨le_trans h1a h2a, le_trans h2b h1b⟩

/-- C6: with refinement enabled, after a round that scanned the current
grid to `(some x, v)` the interval is exactly
`[max(a, x − δ), min(b, x + δ)]` with `δ` halved; and across any run every
reached interval stays inside the starting `[a, b]` (the bounds only move
inward). -/
theorem spec_C6 :
    (∀ (f : ℚ → ℚ) (mx : Bool) (s : ContState) (x : ℚ) (v : FloatVal),
        maquina_turing_discreta f (arange s.a (s.b + s.delta) s.delta) mx = (some x, v) →
        contStep f mx true s =
          .ok ⟨max s.a (x - s.delta), min s.b (x + s.delta), s.delta / 2,
            some (some x, v)⟩) ∧
    (∀ (f : ℚ → ℚ) (mx rf : Bool) (n : Nat) (s s2 : ContState),
        runRounds f mx rf n s = .ok s2 → s.a ≤ s2.a ∧ s2.b ≤ s.b) := by
  constructor
  · intro f mx s x v h
    simp only [contStep, h, if_true]
  · exact runRounds_bounds

/-- Witness for C6 on `f(x) = x` over `[0, 1]` with `δ = 1`: one refining
round moves the state to `[max(0, 1−1), min(1, 1+1)]` with step `1/2`, and
the reached bounds stay inside `[0, 1]`. -/
theorem spec_C6_w :
    (maquina_turing_discreta (fun x => x) (arange 0 (1 + 1) 1) true = (some 1, .fin 1) ∧
      contStep (fun x => x) true true ⟨0, 1, 1, none⟩ =
        .ok ⟨max 0 (1 - 1), min 1 (1 + 1), 1 / 2, some (some 1, .fin 1)⟩) ∧
    (runRounds (fun x => x) true true 1 ⟨0, 1, 1, none⟩ =
        .ok ⟨max 0 (1 - 1), min 1 (1 + 1), 1 / 2, some (some 1, .fin 1)⟩ ∧
      (0 : ℚ) ≤ max 0 (1 - 1) ∧ min 1 (1 + 1) ≤ (1 : ℚ)) := by
  have harange : arange 0 (1 + 1) 1 = [0, 1] := by
    have h2 : ((1 : ℚ) + 1 - 0) / 1 = 2 := by norm_num
    unfold arange
    rw [h2]
    rw [show Int.toNat ⌈(2 : ℚ)⌉ = 2 by norm_num [Int.ceil_ofNat]; rfl]
    rw [show List.range 2 = [0, 1] from rfl]
    norm_num
  have hg : maquina_turing_discreta (fun x => x) (arange 0 (1 + 1) 1) true =
      (some 1, .fin 1) := by
    rw [harange]
    norm_num [maquina_turing_discreta, scanLoop, FloatVal.gt, FloatVal.lt]
  have hstep := spec_C6.1 (fun x => x) true ⟨0, 1, 1, none⟩ 1 (.fin 1) hg
  have hrun : runRounds (fun x => x) true true 1 ⟨0, 1, 1, none⟩ =
      .ok ⟨max 0 (1 - 1), min 1 (1 + 1), 1 / 2, some (some 1, .fin 1)⟩ := by
    have hr1 : runRounds (fun x => x) true true 1 ⟨0, 1, 1, none⟩ =
        match contStep (fun x => x) true true ⟨0, 1, 1, none⟩ with
        | .error e => .error e
        | .ok s2 => runRounds (fun x => x) true true 0 s2 := rfl
    rw [hr1, hstep]
    rfl
  have hinv := spec_C6.2 (fun x => x) true true 1 ⟨0, 1, 1, none⟩
    ⟨max 0 (1 - 1), min 1 (1 + 1), 1 / 2, some (some 1, .fin 1)⟩ hrun
  exact ⟨⟨hg, hstep⟩, hrun, hinv⟩

/-- A mode string other than `"discreto"`/`"continuo"` reaches the final
`raise ValueError` of the dispatcher. -/
theorem dispatcher_tipo_invalido (f : ℚ → ℚ) (dom : Dominio) (kw : Kwargs)
    (tipo : String) (h1 : tipo ≠ "discreto") (h2 : tipo ≠ "continuo") :
    maquina_turing f dom tipo kw = .error .valueError := by
  simp [maquina_turing, h1, h2]

/-- A continuous-mode domain that is not a 2-tuple fails the
`isinstance`/length check and raises `ValueError`. -/
theorem dispatcher_dominio_invalido (f : ℚ → ℚ) (dom : Dominio) (kw : Kwargs)
    (h : esTupla2 dom = false) :
    maquina_turing f dom "continuo" kw = .error .valueError := by
  have hd : ("continuo" : String) ≠ "discreto" := by decide
  unfold maquina_turing
  rw [if_neg hd, if_pos rfl]
  cases dom with
  | lista xs => rfl
  | cadena s => rfl
  | tupla xs =>
    rcases xs with _ | ⟨a, _ | ⟨b, _ | ⟨c, t⟩⟩⟩
    · rfl
    · rfl
    · simp [esTupla2] at h
    · rfl

/-- C3: the dispatcher fails with `ValueError` when the mode is neither
`"discreto"` nor `"continuo"`, and in continuous mode when the domain is
not a 2-element tuple; in both failure cases the result is the immediate
error and is independent of the objective function, which is never
evaluated. -/
theorem spec_C3 :
    (∀ (f : ℚ → ℚ) (dom : Dominio) (kw : Kwargs) (tipo : String),
        tipo ≠ "discreto" → tipo ≠ "continuo" →
        maquina_turing f dom tipo kw = .error .valueError) ∧
    (∀ (f : ℚ → ℚ) (dom : Dominio) (kw : Kwargs),
        esTupla2 dom = false →
        maquina_turing f dom "continuo" kw = .error .valueError) ∧
    (∀ (f g : ℚ → ℚ) (dom : Dominio) (kw : Kwargs) (tipo : String),
        (tipo ≠ "discreto" ∧ tipo ≠ "continuo") ∨
          (tipo = "continuo" ∧ esTupla2 dom = false) →
        maquina_turing f dom tipo kw = maquina_turing g dom tipo kw) := by
  refine ⟨dispatcher_tipo_invalido, dispatcher_dominio_invalido, ?_⟩
  intro f g dom kw tipo h
  rcases h with ⟨h1, h2⟩ | ⟨h1, h2⟩
  · rw [dispatcher_tipo_invalido f dom kw tipo h1 h2,
      dispatcher_tipo_invalido g dom kw tipo h1 h2]
  · subst h1
    rw [dispatcher_dominio_invalido f dom kw h2,
      dispatcher_dominio_invalido g dom kw h2]

/-- Witness for C3: mode `"bogus"` on a list domain, and continuous mode on
the string domain `"not-a-tuple"`, both fail with `ValueError`. -/
theorem spec_C3_w :
    ("bogus" ≠ "discreto" ∧ "bogus" ≠ "continuo" ∧
      maquina_turing (fun x => x) (.lista [1, 2, 3]) "bogus"
        ⟨none, none, none, none, []⟩ = .error .valueError) ∧
    (esTupla2 (.cadena "not-a-tuple") = false ∧
      maquina_turing (fun x => x) (.cadena "not-a-tuple") "continuo"
        ⟨none, none, none, none, []⟩ = .error .valueError) :=
  ⟨⟨by decide, by decide,
    spec_C3.1 (fun x => x) (.lista [1, 2, 3]) ⟨none, none, none, none, []⟩
      "bogus" (by decide) (by decide)⟩,
   ⟨rfl,
    spec_C3.2.1 (fun x => x) (.cadena "not-a-tuple")
      ⟨none, none, none, none, []⟩ rfl⟩⟩

/-- Counterexample to C8 as stated: in discrete mode an extra option key
(`delta_x` here) makes the dispatcher fail with a `TypeError` instead of
being ignored, while the same call without the extra key succeeds. -/
theorem spec_C8_cex :
    maquina_turing (fun x => x) (.lista [1]) "discreto"
        ⟨some true, some (1 / 10), none, none, []⟩ = .error .typeError ∧
    maquina_turing (fun x => x) (.lista [1]) "discreto"
        ⟨some true, none, none, none, []⟩ = .ok (some 1, .fin 1) :=
  ⟨rfl, rfl⟩

/-- C8 (amended): in discrete mode the dispatcher forwards the whole option
bag to `maquina_turing_discreta`; a bag whose only key is `maximizar`
succeeds with the Discrete Scanner result, and a bag holding any other key
fails with a `TypeError` (extra keys are not ignored in discrete mode). -/
theorem spec_C8_amended :
    (∀ (f : ℚ → ℚ) (xs : List ℚ) (mx : Option Bool),
        maquina_turing f (.lista xs) "discreto" ⟨mx, none, none, none, []⟩ =
          .ok (maquina_turing_discreta f xs (mx.getD true))) ∧
    (∀ (f : ℚ → ℚ) (dom : Dominio) (kw : Kwargs),
        kw.soloMaximizar = false →
        maquina_turing f dom "discreto" kw = .error .typeError) := by
  constructor
  · intro f xs mx
    rfl
  · intro f dom kw h
    simp [maquina_turing, h]

/-- Witness for C8 (amended) at a bag with the extra key `delta_x` and at a
bag with only `maximizar`. -/
theorem spec_C8_w :
    Kwargs.soloMaximizar ⟨some true, some (1 / 10), none, none, []⟩ = false ∧
    maquina_turing (fun x => x) (.lista [1]) "discreto"
        ⟨some true, some (1 / 10), none, none, []⟩ = .error .typeError ∧
    maquina_turing (fun x => x) (.lista [1]) "discreto"
        ⟨some true, none, none, none, []⟩ =
      .ok (maquina_turing_discreta (fun x => x) [1] ((some true).getD true)) :=
  ⟨rfl,
   spec_C8_amended.2 (fun x => x) (.lista [1])
     ⟨some true, some (1 / 10), none, none, []⟩ rfl,
   spec_C8_amended.1 (fun x => x) [1] (some true)⟩

/-- Starting from a finite accumulator that is the objective at some point,
the scan always ends at the objective evaluated at a visited point. -/
theorem scanLoop_mem (f : ℚ → ℚ) (mx : Bool) :
    ∀ (xs : List ℚ) (x0 : ℚ),
      ∃ y, y ∈ x0 :: xs ∧
        scanLoop f mx xs (some x0, .fin (f x0)) = (some y, .fin (f y)) := by
  intro xs
  induction xs with
  | nil => exact fun x0 => ⟨x0, List.mem_cons_self x0 [], rfl⟩
  | cons x t ih =>
    intro x0
    cases hc : (mx && FloatVal.gt (.fin (f x)) (.fin (f x0))) ||
        (!mx && FloatVal.lt (.fin (f x)) (.fin (f x0))) with
    | true =>
      obtain ⟨y, hy, he⟩ := ih x
      refine ⟨y, List.mem_cons_of_mem x0 hy, ?_⟩
      rw [← he]
      simp [scanLoop, hc]
    | false =>
      obtain ⟨y, hy, he⟩ := ih x0
      refine ⟨y, ?_, ?_⟩
      · rcases List.mem_cons.mp hy with h1 | h1
        · rw [h1]; exact List.mem_cons_self x0 (x :: t)
        · exact List.mem_cons_of_mem x0 (List.mem_cons_of_mem x h1)
      · rw [← he]
        simp [scanLoop, hc]

/-- The first candidate always strictly beats the infinite sentinel, in
both directions. -/
theorem scanLoop_inicio (f : ℚ → ℚ) (mx : Bool) (d : ℚ) (t : List ℚ) :
    scanLoop f mx (d :: t) (none, if mx then .negInf else .posInf) =
      scanLoop f mx t (some d, .fin (f d)) := by
  cases mx <;> simp [scanLoop, FloatVal.gt, FloatVal.lt]

/-- C9: on a non-empty domain the scanner returns some element `x` of the
domain together with exactly `f x` (never a stale or sentinel value). -/
theorem spec_C9 (f : ℚ → ℚ) (D : List ℚ) (mx : Bool) (h : D ≠ []) :
    ∃ x, x ∈ D ∧ maquina_turing_discreta f D mx = (some x, .fin (f x)) := by
  obtain ⟨d, t, rfl⟩ := List.exists_cons_of_ne_nil h
  unfold maquina_turing_discreta
  rw [scanLoop_inicio]
  exact scanLoop_mem f mx t d

/-- Witness for C9 on `f(x) = x` over `[2, 1]`, minimizing. -/
theorem spec_C9_w :
    ([2, 1] : List ℚ) ≠ [] ∧
      ∃ x, x ∈ ([2, 1] : List ℚ) ∧
        maquina_turing_discreta (fun v => v) [2, 1] false = (some x, .fin x) :=
  ⟨by simp, spec_C9 (fun v => v) [2, 1] false (by simp)⟩

/-- The seed is below a left fold of `max`. -/
theorem le_foldl_max (l : List ℚ) (a : ℚ) : a ≤ l.foldl max a := by
  induction l generalizing a with
  | nil => exact le_refl a
  | cons x t ih => exact le_trans (le_max_left a x) (ih (max a x))

/-- A left fold of `max` is the seed or a member of the list. -/
theorem foldl_max_mem (l : List ℚ) (a : ℚ) :
    l.foldl max a = a ∨ l.foldl max a ∈ l := by
  induction l generalizing a with
  | nil => exact Or.inl rfl
  | cons x t ih =>
    rcases ih (max a x) with h | h
    · rcases le_total a x with hax | hxa
      · right
        rw [List.foldl_cons, h, max_eq_right hax]
        exact List.mem_cons_self x t
      · left
        rw [List.foldl_cons, h, max_eq_left hxa]
    · right
      exact List.mem_cons_of_mem x h

/-- Every member of the list is below a left fold of `max`. -/
theorem mem_le_foldl_max (l : List ℚ) (a : ℚ) :
    ∀ x ∈ l, x ≤ l.foldl max a := by
  induction l generalizing a with
  | nil => intro x hx; exact absurd hx (List.not_mem_nil x)
  | cons y t ih =>
    intro x hx
    rcases List.mem_cons.mp hx with h1 | h1
    · rw [h1, List.foldl_cons]
      exact le_trans (le_max_right a y) (le_foldl_max t (max a y))
    · exact ih (max a y) x h1

/-- A left fold of `min` is below the seed. -/
theorem foldl_min_le (l : List ℚ) (a : ℚ) : l.foldl min a ≤ a := by
  induction l generalizing a with
  | nil => exact le_refl a
  | cons x t ih => exact le_trans (ih (min a x)) (min_le_left a x)

/-- A left fold of `min` is the seed or a member of the list. -/
theorem foldl_min_mem (l : List ℚ) (a : ℚ) :
    l.foldl min a = a ∨ l.foldl min a ∈ l := by
  induction l generalizing a with
  | nil => exact Or.inl rfl
  | cons x t ih =>
    rcases ih (min a x) with h | h
    · rcases le_total a x with hax | hxa
      · left
        rw [List.foldl_cons, h, min_eq_left hax]
      · right
        rw [List.foldl_cons, h, min_eq_right hxa]
        exact List.mem_cons_self x t
    · right
      exact List.mem_cons_of_mem x h

/-- A left fold of `min` is below every member of the list. -/
theorem foldl_min_le_mem (l : List ℚ) (a : ℚ) :
    ∀ x ∈ l, l.foldl min a ≤ x := by
  induction l generalizing a with
  | nil => intro x hx; exact absurd hx (List.not_mem_nil x)
  | cons y t ih =>
    intro x hx
    rcases List.mem_cons.mp hx with h1 | h1
    · rw [h1, List.foldl_cons]
      exact le_trans (foldl_min_le t (min a y)) (min_le_right a y)
    · exact ih (min a y) x h1

/-- Characterization of the maximizing scan from a finite accumulator: the
final value is the running `max`, and the winner is the accumulator on a
tie (strict comparison: later ties never overwrite) or else the first
element of the rest attaining the maximum. -/
theorem scanLoop_max_char (f : ℚ → ℚ) :
    ∀ (xs : List ℚ) (x0 v0 : ℚ),
      scanLoop f true xs (some x0, .fin v0) =
        ((if v0 = (xs.map f).foldl max v0 then some x0
          else xs.find? fun x => decide (f x = (xs.map f).foldl max v0)),
         .fin ((xs.map f).foldl max v0)) := by
  intro xs
  induction xs with
  | nil => intro x0 v0; simp [scanLoop]
  | cons x t ih =>
    intro x0 v0
    have hM : ((x :: t).map f).foldl max v0 = (t.map f).foldl max (max v0 (f x)) := by
      rw [List.map_cons, List.foldl_cons]
    by_cases hlt : v0 < f x
    · have hstep : scanLoop f true (x :: t) (some x0, .fin v0) =
          scanLoop f true t (some x, .fin (f x)) := by
        simp [scanLoop, FloatVal.gt, FloatVal.lt, hlt]
      rw [hstep, ih x (f x), hM, max_eq_right hlt.le]
      have hfx_le : f x ≤ (t.map f).foldl max (f x) := le_foldl_max _ _
      have hne : v0 ≠ (t.map f).foldl max (f x) := ne_of_lt (lt_of_lt_of_le hlt hfx_le)
      rw [if_neg hne]
      by_cases hfx : f x = (t.map f).foldl max (f x)
      · rw [if_pos hfx, List.find?_cons_of_pos _ (by simpa using hfx)]
      · rw [if_neg hfx, List.find?_cons_of_neg _ (by simpa using hfx)]
    · have hstep : scanLoop f true (x :: t) (some x0, .fin v0) =
          scanLoop f true t (some x0, .fin v0) := by
        simp [scanLoop, FloatVal.gt, FloatVal.lt, hlt]
      rw [hstep, ih x0 v0, hM, max_eq_left (not_lt.mp hlt)]
      by_cases hv : v0 = (t.map f).foldl max v0
      · rw [if_pos hv, if_pos hv]
      · have hfxne : ¬(f x = (t.map f).foldl max v0) := by
          intro he
          exact hv (le_antisymm (le_foldl_max _ _) (he ▸ not_lt.mp hlt))
        rw [if_neg hv, if_neg hv, List.find?_cons_of_neg _ (by simpa using hfxne)]

/-- Characterization of the minimizing scan from a finite accumulator,
mirroring `scanLoop_max_char`. -/
theorem scanLoop_min_char (f : ℚ → ℚ) :
    ∀ (xs : List ℚ) (x0 v0 : ℚ),
      scanLoop f false xs (some x0, .fin v0) =
        ((if v0 = (xs.map f).foldl min v0 then some x0
          else xs.find? fun x => decide (f x = (xs.map f).foldl min v0)),
         .fin ((xs.map f).foldl min v0)) := by
  intro xs
  induction xs with
  | nil => intro x0 v0; simp [scanLoop]
  | cons x t ih =>
    intro x0 v0
    have hM : ((x :: t).map f).foldl min v0 = (t.map f).foldl min (min v0 (f x)) := by
      rw [List.map_cons, List.foldl_cons]
    by_cases hlt : f x < v0
    · have hstep : scanLoop f false (x :: t) (some x0, .fin v0) =
          scanLoop f false t (some x, .fin (f x)) := by
        simp [scanLoop, FloatVal.gt, FloatVal.lt, hlt]
      rw [hstep, ih x (f x), hM, min_eq_right hlt.le]
      have hfx_le : (t.map f).foldl min (f x) ≤ f x := foldl_min_le _ _
      have hne : v0 ≠ (t.map f).foldl min (f x) :=
        Ne.symm (ne_of_lt (lt_of_le_of_lt hfx_le hlt))
      rw [if_neg hne]
      by_cases hfx : f x = (t.map f).foldl min (f x)
      · rw [if_pos hfx, List.find?_cons_of_pos _ (by simpa using hfx)]
      · rw [if_neg hfx, List.find?_cons_of_neg _ (by simpa using hfx)]
    · have hstep : scanLoop f false (x :: t) (some x0, .fin v0) =
          scanLoop f false t (some x0, .fin v0) := by
        simp [scanLoop, FloatVal.gt, FloatVal.lt, hlt]
      rw [hstep, ih x0 v0, hM, min_eq_left (not_lt.mp hlt)]
      by_cases hv : v0 = (t.map f).foldl min v0
      · rw [if_pos hv, if_pos hv]
      · have hfxne : ¬(f x = (t.map f).foldl min v0) := by
          intro he
          exact hv (le_antisymm (he ▸ not_lt.mp hlt) (foldl_min_le _ _))
        rw [if_neg hv, if_neg hv, List.find?_cons_of_neg _ (by simpa using hfxne)]

/-- C1: on a non-empty domain, maximizing returns the maximum of `f` over
the domain together with the first element attaining it, and minimizing
returns the minimum together with the first element attaining it (strict
comparison means later ties never overwrite the earlier winner). -/
theorem spec_C1 (f : ℚ → ℚ) (D : List ℚ) (h : D ≠ []) :
    ∃ M m : ℚ,
      (D.map f).maximum = (M : WithBot ℚ) ∧
      maquina_turing_discreta f D true =
        (D.find? fun x => decide (f x = M), .fin M) ∧
      (D.map f).minimum = (m : WithTop ℚ) ∧
      maquina_turing_discreta f D false =
        (D.find? fun x => decide (f x = m), .fin m) := by
  obtain ⟨d, t, rfl⟩ := List.exists_cons_of_ne_nil h
  refine ⟨(t.map f).foldl max (f d), (t.map f).foldl min (f d), ?_, ?_, ?_, ?_⟩
  · rw [List.maximum_eq_coe_iff]
    constructor
    · rcases foldl_max_mem (t.map f) (f d) with h1 | h1
      · rw [h1, List.map_cons]; exact List.mem_cons_self _ _
      · rw [List.map_cons]; exact List.mem_cons_of_mem _ h1
    · intro a ha
      rw [List.map_cons] at ha
      rcases List.mem_cons.mp ha with h1 | h1
      · rw [h1]; exact le_foldl_max _ _
      · exact mem_le_foldl_max _ _ a h1
  · unfold maquina_turing_discreta
    rw [scanLoop_inicio, scanLoop_max_char]
    by_cases hfd : f d = (t.map f).foldl max (f d)
    · rw [if_pos hfd, List.find?_cons_of_pos _ (by simpa using hfd)]
    · rw [if_neg hfd, List.find?_cons_of_neg _ (by simpa using hfd)]
  · rw [List.minimum_eq_coe_iff]
    constructor
    · rcases foldl_min_mem (t.map f) (f d) with h1 | h1
      · rw [h1, List.map_cons]; exact List.mem_cons_self _ _
      · rw [List.map_cons]; exact List.mem_cons_of_mem _ h1
    · intro a ha
      rw [List.map_cons] at ha
      rcases List.mem_cons.mp ha with h1 | h1
      · rw [h1]; exact foldl_min_le _ _
      · exact foldl_min_le_mem _ _ a h1
  · unfold maquina_turing_discreta
    rw [scanLoop_inicio, scanLoop_min_char]
    by_cases hfd : f d = (t.map f).foldl min (f d)
    · rw [if_pos hfd, List.find?_cons_of_pos _ (by simpa using hfd)]
    · rw [if_neg hfd, List.find?_cons_of_neg _ (by simpa using hfd)]

/-- Witness for C1 on `f(x) = x` over the domain `[2, 1, 2]` (which has a
tie for the maximum). -/
theorem spec_C1_w :
    ([2, 1, 2] : List ℚ) ≠ [] ∧
      ∃ M m : ℚ,
        (([2, 1, 2] : List ℚ).map (fun v => v)).maximum = (M : WithBot ℚ) ∧
        maquina_turing_discreta (fun v => v) [2, 1, 2] true =
          (([2, 1, 2] : List ℚ).find? fun x => decide (x = M), .fin M) ∧
        (([2, 1, 2] : List ℚ).map (fun v => v)).minimum = (m : WithTop ℚ) ∧
        maquina_turing_discreta (fun v => v) [2, 1, 2] false =
          (([2, 1, 2] : List ℚ).find? fun x => decide (x = m), .fin m) :=
  ⟨by simp, spec_C1 (fun v => v) [2, 1, 2] (by simp)⟩

/-- C5: for `a ≤ b` and `δ > 0`, the grid the Continuous Refiner builds
with end bound `b + δ` is non-empty, its `i`-th candidate is `a + i·δ`,
its last candidate is the first one `≥ b` (all earlier ones are `< b`),
and `b` itself is a grid point whenever `b − a` is an exact multiple
of `δ`. -/
theorem spec_C5 (a b δ : ℚ) (hab : a ≤ b) (hδ : 0 < δ) :
    arange a (b + δ) δ ≠ [] ∧
    (∀ i, (hi : i < (arange a (b + δ) δ).length) →
        (arange a (b + δ) δ).get ⟨i, hi⟩ = a + i * δ) ∧
    (∀ hne : arange a (b + δ) δ ≠ [], b ≤ (arange a (b + δ) δ).getLast hne) ∧
    (∀ i, (hi : i < (arange a (b + δ) δ).length) →
        i + 1 < (arange a (b + δ) δ).length →
        (arange a (b + δ) δ).get ⟨i, hi⟩ < b) ∧
    (∀ k : ℕ, b - a = k * δ → b ∈ arange a (b + δ) δ) := by
  have hδ0 : δ ≠ 0 := ne_of_gt hδ
  have hquot : (b + δ - a) / δ = (b - a) / δ + 1 := by
    rw [show b + δ - a = (b - a) + δ by ring, add_div, div_self hδ0]
  have hceil : ⌈(b + δ - a) / δ⌉ = ⌈(b - a) / δ⌉ + 1 := by
    rw [hquot, Int.ceil_add_one]
  have hc0 : 0 ≤ ⌈(b - a) / δ⌉ := Int.ceil_nonneg (div_nonneg (by linarith) hδ.le)
  have hlen : (arange a (b + δ) δ).length = Int.toNat ⌈(b + δ - a) / δ⌉ := by
    rw [arange, List.length_map, List.length_range]
  have hlen2 : (arange a (b + δ) δ).length = Int.toNat ⌈(b - a) / δ⌉ + 1 := by
    rw [hlen, hceil]; omega
  have hpos : 0 < (arange a (b + δ) δ).length := by omega
  have hne : arange a (b + δ) δ ≠ [] := List.length_pos.mp hpos
  have hget : ∀ i, (hi : i < (arange a (b + δ) δ).length) →
      (arange a (b + δ) δ).get ⟨i, hi⟩ = a + i * δ := by
    intro i hi
    have hi2 : i < ((List.range (Int.toNat ⌈(b + δ - a) / δ⌉)).map
        fun k : ℕ => a + (k : ℚ) * δ).length := hi
    calc (arange a (b + δ) δ).get ⟨i, hi⟩
        = ((List.range (Int.toNat ⌈(b + δ - a) / δ⌉)).map
            fun k : ℕ => a + (k : ℚ) * δ).get ⟨i, hi2⟩ := rfl
      _ = a + i * δ := by
          rw [List.get_eq_getElem, List.getElem_map, List.getElem_range]
  have hcast : ((Int.toNat ⌈(b - a) / δ⌉ : ℕ) : ℚ) = ((⌈(b - a) / δ⌉ : ℤ) : ℚ) := by
    exact_mod_cast Int.toNat_of_nonneg hc0
  have hdm : (b - a) / δ * δ = b - a := div_mul_cancel₀ _ hδ0
  refine ⟨hne, hget, ?_, ?_, ?_⟩
  · intro hne2
    rw [List.getLast_eq_getElem]
    have hg1 := hget ((arange a (b + δ) δ).length - 1) (by omega)
    rw [List.get_eq_getElem] at hg1
    rw [hg1]
    have hl1 : (arange a (b + δ) δ).length - 1 = Int.toNat ⌈(b - a) / δ⌉ := by omega
    rw [hl1, hcast]
    have h8 : (b - a) / δ ≤ ((⌈(b - a) / δ⌉ : ℤ) : ℚ) := Int.le_ceil _
    have h9 : (b - a) / δ * δ ≤ ((⌈(b - a) / δ⌉ : ℤ) : ℚ) * δ :=
      mul_le_mul_of_nonneg_right h8 hδ.le
    linarith
  · intro i hi hi1
    rw [hget]
    have h1 : (i : ℤ) ≤ ⌈(b - a) / δ⌉ - 1 := by omega
    have h4 : ((⌈(b - a) / δ⌉ : ℤ) : ℚ) < (b - a) / δ + 1 := Int.ceil_lt_add_one _
    have h5 : ((i : ℕ) : ℚ) ≤ ((⌈(b - a) / δ⌉ : ℤ) : ℚ) - 1 := by exact_mod_cast h1
    have h2 : ((i : ℕ) : ℚ) < (b - a) / δ := by linarith
    have h6 : ((i : ℕ) : ℚ) * δ < b - a := by
      have h7 := mul_lt_mul_of_pos_right h2 hδ
      rwa [hdm] at h7
    linarith
  · intro k hk
    have hck : (b - a) / δ = (k : ℚ) := by
      rw [hk, mul_div_cancel_right₀ _ hδ0]
    have hceilk : ⌈(b - a) / δ⌉ = (k : ℤ) := by
      rw [hck, Int.ceil_natCast]
    have hb : b = a + (k : ℚ) * δ := by linarith
    rw [arange]
    refine List.mem_map.mpr ⟨k, List.mem_range.mpr ?_, hb.symm⟩
    rw [hceil, hceilk]
    omega

/-- Witness for C5 at `a = 0`, `b = 1`, `δ = 1`. -/
theorem spec_C5_w :
    (0 : ℚ) ≤ 1 ∧ (0 : ℚ) < 1 ∧
      (arange 0 (1 + 1) 1 ≠ [] ∧
        (∀ i, (hi : i < (arange (0 : ℚ) (1 + 1) 1).length) →
            (arange (0 : ℚ) (1 + 1) 1).get ⟨i, hi⟩ = 0 + i * 1) ∧
        (∀ hne : arange (0 : ℚ) (1 + 1) 1 ≠ [],
            (1 : ℚ) ≤ (arange (0 : ℚ) (1 + 1) 1).getLast hne) ∧
        (∀ i, (hi : i < (arange (0 : ℚ) (1 + 1) 1).length) →
            i + 1 < (arange (0 : ℚ) (1 + 1) 1).length →
            (arange (0 : ℚ) (1 + 1) 1).get ⟨i, hi⟩ < 1) ∧
        (∀ k : ℕ, (1 : ℚ) - 0 = k * 1 → (1 : ℚ) ∈ arange 0 (1 + 1) 1)) :=
  ⟨by norm_num, by norm_num, spec_C5 0 1 1 (by norm_num) (by norm_num)⟩
